import Mathlib

/-!
Verification of the lab-report extraction pipeline of `backend/ocr_pipeline.py`
(predictive-risk-app).

The parsing layer of the pipeline is embedded at the character level:
Python strings become `List Char`, the handful of fixed regular expressions
(`_RANGE_RX`, `_NUMBER_RX`, `_UNIT_RX`, the compiled alias patterns) are
translated, construct by construct, into executable matching functions with
Python `re` semantics (leftmost match, alternation in order, greedy / lazy
quantifiers, `\b` word boundaries, IGNORECASE as ASCII case folding).
Python floats are modelled as exact rationals (the decimal tokens the
pipeline reads are exact decimals); `round(x, 2)` is modelled as rounding
to a rational with two decimal digits.  The external rasterizer and OCR
engine are black boxes per the specification: the document-level pipeline
takes the per-page recognized texts as its input.
-/

namespace OcrPipeline

/-! ### Character classes (Python `re` classes, ASCII model)

Python `\w` / `\s` / `\d` are Unicode classes; every character the parsing
layer manipulates in the claims is ASCII, so the embedding uses the ASCII
fragment.  Case-insensitive matching (`re.I`) is ASCII case folding. -/

/-- Python `\w`: letters, digits, underscore (ASCII fragment). -/
def isWordChar (c : Char) : Bool := c.isAlphanum || c = '_'

/-- Python `\s`: whitespace (ASCII fragment: space, tab, LF, VT, FF, CR). -/
def pyIsSpace (c : Char) : Bool :=
  c = ' ' || c = '\t' || c = '\n' || c = '\r' || c = Char.ofNat 11 || c = Char.ofNat 12

/-- The three characters that appear in the source text of `_RANGE_RX` where an
en-dash was intended: `â` (U+00E2), `€` (U+20AC), `“` (U+201C) — the UTF-8
bytes of U+2013 mis-decoded as Latin-1.  Confirmed by the raw bytes of
`ocr_pipeline.py` line 163. -/
def mojA : Char := Char.ofNat 0xE2

/-- Second mojibake character of the mis-decoded en-dash. -/
def mojB : Char := Char.ofNat 0x20AC

/-- Third mojibake character of the mis-decoded en-dash. -/
def mojC : Char := Char.ofNat 0x201C

/-- A real en-dash U+2013 (what the spec's words describe). -/
def enDash : Char := Char.ofNat 0x2013

/-- Character of `s` at index `i`, `none` past the end (Python `s[i]`). -/
def charAt (s : List Char) (i : ℕ) : Option Char := s[i]?

/-- Is the character at index `i` a word character (out of range counts as no)? -/
def isWordAt (s : List Char) (i : ℕ) : Bool :=
  match charAt s i with
  | some c => isWordChar c
  | none => false

/-- Python `\b` at position `i` of `s`: exactly one of the two adjacent
positions holds a word character (string ends count as non-word). -/
def pyWordBoundary (s : List Char) (i : ℕ) : Bool :=
  (match i with
   | 0 => false
   | j + 1 => isWordAt s j) != isWordAt s i

/-- Python slice `s[a:b]` (indices clamp to the string). -/
def slice (s : List Char) (a b : ℕ) : List Char := (s.take b).drop a

/-- Match the literal character sequence `w` at position `i` of `s`,
case-insensitively (ASCII folding); returns the end position on success. -/
def litCiAt : List Char → List Char → ℕ → Option ℕ
  | [], _, i => some i
  | c :: w, s, i =>
    match charAt s i with
    | some d => if c.toLower = d.toLower then litCiAt w s (i + 1) else none
    | none => none

/-- Boolean form of `litCiAt`. -/
def litCiHolds (w s : List Char) (i : ℕ) : Bool := (litCiAt w s i).isSome

/-- Length of the maximal digit run of `s` starting at `i` (greedy `\d+`,
possibly 0). -/
def digitRun (s : List Char) (i : ℕ) : ℕ :=
  ((s.drop i).takeWhile Char.isDigit).length

/-- Length consumed by the optional fractional part `(?:\.\d+)?` at position
`i`: `1 + digits` when a dot followed by at least one digit is present,
otherwise 0 (the optional group matches empty). -/
def fracLen (s : List Char) (i : ℕ) : ℕ :=
  match charAt s i with
  | some c =>
    if c = '.' then
      if digitRun s (i + 1) = 0 then 0 else 1 + digitRun s (i + 1)
    else 0
  | none => 0

/-- Length of the maximal whitespace run at `i` (greedy `\s*`). -/
def wsRun (s : List Char) (i : ℕ) : ℕ :=
  ((s.drop i).takeWhile pyIsSpace).length

/-! ### `_NUMBER_RX = (?P<val>\d+(?:\.\d+)?)` — `finditer` token list -/

/-- One step of `re.finditer(_NUMBER_RX, s)`: scan left to right; at a digit,
take the maximal digit run plus an optional `.digits` fractional part and
continue after the token (matches are non-overlapping); otherwise advance one
character.  `fuel` bounds recursion depth; every step consumes at least one
character, so `fuel = s.length` is exact. -/
def numTokensGo : ℕ → List Char → ℕ → List (ℕ × ℕ)
  | 0, _, _ => []
  | _ + 1, [], _ => []
  | fuel + 1, c :: cs, i =>
    if c.isDigit then
      let d := ((c :: cs).takeWhile Char.isDigit).length
      let rest := (c :: cs).drop d
      let f :=
        match rest with
        | '.' :: r =>
          let fd := (r.takeWhile Char.isDigit).length
          if fd = 0 then 0 else 1 + fd
        | _ => 0
      (i, i + d + f) :: numTokensGo fuel ((c :: cs).drop (d + f)) (i + d + f)
    else numTokensGo fuel cs (i + 1)

/-- The `(start, end)` spans of all `_NUMBER_RX` matches of `s`, in order. -/
def numberTokens (s : List Char) : List (ℕ × ℕ) := numTokensGo s.length s 0

/-- Value of a base-10 digit string (most significant first). -/
def digitsToNat (cs : List Char) : ℕ :=
  cs.foldl (fun a c => 10 * a + (c.toNat - 48)) 0

/-- Exact rational value of a decimal token of the shape `\d+(\.\d+)?`
(Python `float(val_txt)`; that conversion never raises for this token shape,
so the source's `try/except` around it is dead). -/
def decVal (cs : List Char) : ℚ :=
  let ip := cs.takeWhile (fun c => c ≠ '.')
  let fp := (cs.dropWhile (fun c => c ≠ '.')).drop 1
  mkRat (digitsToNat ip * 10 ^ fp.length + digitsToNat fp) (10 ^ fp.length)

/-! ### `_RANGE_RX = \b\d+(?:\.\d+)?\s*(?:-|â€“|to|~)\s*\d+(?:\.\d+)?\b` (re.I) -/

/-- Length of the separator alternation `(?:-|â€“|to|~)` at position `p`
(alternatives tried in source order; their first characters are distinct, so
the alternation is deterministic). -/
def sepLen (s : List Char) (p : ℕ) : Option ℕ :=
  if litCiHolds ['-'] s p then some 1
  else if litCiHolds [mojA, mojB, mojC] s p then some 3
  else if litCiHolds ['t', 'o'] s p then some 2
  else if litCiHolds ['~'] s p then some 1
  else none

/-- Does `_RANGE_RX` match starting at position `i`?  Greedy choices of the
numeric parts never need backtracking against the separator (the separator
cannot begin with a digit, a dot or a space); the only live backtrack point
is the trailing fractional part against the final `\b`, and when a fractional
part exists at all, dropping it always satisfies `\b` (the `.` is a non-word
character), so the final test reduces to `frac exists ∨ \b after digits`. -/
def rangeMatchAt (s : List Char) (i : ℕ) : Bool :=
  pyWordBoundary s i &&
  (let d1 := digitRun s i
   d1 != 0 &&
   (let p1 := i + d1 + fracLen s (i + d1)
    let p2 := p1 + wsRun s p1
    match sepLen s p2 with
    | none => false
    | some L =>
      let p3 := p2 + L + wsRun s (p2 + L)
      let d2 := digitRun s p3
      d2 != 0 && (fracLen s (p3 + d2) != 0 || pyWordBoundary s (p3 + d2))))

/-- `bool(_RANGE_RX.search(s))` (also `_is_range_context`): some start
position matches. -/
def rangeSearch (s : List Char) : Bool :=
  (List.range (s.length + 1)).any (fun i => rangeMatchAt s i)

/-! ### `_UNIT_RX = \b(mg\/?dL|mmol\/?L)\b` (re.I) -/

/-- Match `_UNIT_RX` at position `i`: alternatives in source order, the
optional `/` tried greedily first, word boundaries at both ends; returns the
matched text (original case). -/
def unitAt (s : List Char) (i : ℕ) : Option (List Char) :=
  if pyWordBoundary s i then
    if litCiHolds ['m', 'g', '/', 'd', 'l'] s i && pyWordBoundary s (i + 5) then
      some (slice s i (i + 5))
    else if litCiHolds ['m', 'g', 'd', 'l'] s i && pyWordBoundary s (i + 4) then
      some (slice s i (i + 4))
    else if litCiHolds ['m', 'm', 'o', 'l', '/', 'l'] s i && pyWordBoundary s (i + 6) then
      some (slice s i (i + 6))
    else if litCiHolds ['m', 'm', 'o', 'l', 'l'] s i && pyWordBoundary s (i + 5) then
      some (slice s i (i + 5))
    else none
  else none

/-- `_UNIT_RX.search(s)`: leftmost match. -/
def unitSearch (s : List Char) : Option (List Char) :=
  (List.range (s.length + 1)).findSome? (fun i => unitAt s i)

/-! ### `_extract_value_unit_from_line` -/

/-- The `±6`-character window the extractor inspects around a numeric token:
`s[max(0, start - 6) : min(len(s), end + 6)]`. -/
def window (s : List Char) (st en : ℕ) : List Char :=
  slice s (st - 6) (min s.length (en + 6))

/-- The loop body of `_extract_value_unit_from_line`: walk the `_NUMBER_RX`
matches in order, skip any token whose window matches `_RANGE_RX`, and for
the first surviving token return its value together with a unit searched in
the 20 characters to its right (`s[end : end + 20]`). -/
def extractGo (s : List Char) : List (ℕ × ℕ) → Option (ℚ × Option (List Char))
  | [] => none
  | (st, en) :: rest =>
    if rangeSearch (window s st en) then extractGo s rest
    else some (decVal (slice s st en), unitSearch (slice s en (en + 20)))

/-- `_extract_value_unit_from_line(s)`: first standalone numeric value of the
line, with an optional unit to its right. -/
def _extract_value_unit_from_line (s : List Char) : Option (ℚ × Option (List Char)) :=
  extractGo s (numberTokens s)

/-! ### Canonical fields and the `ALIASES` table -/

/-- The closed vocabulary of canonical fields (the keys of `ALIASES`). -/
inductive CanonicalField where
  | total_cholesterol | hdl | ldl | triglycerides | non_hdl | chol_hdl_ratio
  | glucose | bun | creatinine | sodium | potassium | chloride | bicarbonate
  | calcium | albumin | total_protein
  | alt | ast | alp | bilirubin
  | wbc | rbc | hgb | hct | mcv | rdw | plt | mpv | neut | lymph | mono | eos | baso
  | crp
  deriving DecidableEq

/-- The `ALIASES` table of `ocr_pipeline.py`, alias lists in source order. -/
def ALIASES : CanonicalField → List (List Char)
  | .total_cholesterol =>
    ["total cholesterol".data, "cholesterol total".data, "chol total".data,
     "chol, total".data, "tc".data]
  | .hdl => ["hdl".data, "hdl cholesterol".data, "hdl-cholesterol".data, "hdl-c".data,
     "hdl c".data]
  | .ldl => ["ldl".data, "ldl cholesterol".data, "ldl-cholesterol".data, "ldl-c".data,
     "ldl c".data, "ldl calc".data, "ldl-chol calc".data, "ldl cholesterol calc".data,
     "ldl calculated".data]
  | .triglycerides => ["triglycerides".data, "trig".data, "tg".data, "triglyc".data]
  | .non_hdl => ["non-hdl".data, "non hdl".data, "nonhdl".data]
  | .chol_hdl_ratio => ["chol:hdl ratio".data, "chol/hdl ratio".data, "tc/hdl ratio".data,
     "chol to hdl ratio".data]
  | .glucose => ["glucose".data, "fasting glucose".data, "fpg".data]
  | .bun => ["bun".data, "blood urea nitrogen".data]
  | .creatinine => ["creatinine".data]
  | .sodium => ["sodium".data, "na".data]
  | .potassium => ["potassium".data, "k".data]
  | .chloride => ["chloride".data, "cl".data]
  | .bicarbonate => ["bicarbonate".data, "co2".data, "carbon dioxide".data]
  | .calcium => ["calcium".data, "ca".data]
  | .albumin => ["albumin".data]
  | .total_protein => ["total protein".data, "protein total".data]
  | .alt => ["alt".data, "alanine aminotransferase".data, "alanine transaminase".data]
  | .ast => ["ast".data, "aspartate aminotransferase".data, "aspartate transaminase".data]
  | .alp => ["alp".data, "alkaline phosphatase".data]
  | .bilirubin => ["bilirubin".data, "total bilirubin".data, "tbili".data]
  | .wbc => ["wbc".data, "white blood cells".data, "leukocytes".data]
  | .rbc => ["rbc".data, "red blood cells".data]
  | .hgb => ["hgb".data, "hemoglobin".data]
  | .hct => ["hct".data, "hematocrit".data]
  | .mcv => ["mcv".data]
  | .rdw => ["rdw".data, "rdw-cv".data]
  | .plt => ["plt".data, "platelets".data]
  | .mpv => ["mpv".data]
  | .neut => ["neut".data, "neutrophils".data]
  | .lymph => ["lymph".data, "lymphocytes".data]
  | .mono => ["mono".data, "monocytes".data]
  | .eos => ["eos".data, "eosinophils".data]
  | .baso => ["baso".data, "basophils".data]
  | .crp => ["crp".data, "hs-crp".data, "c-reactive protein".data]

/-- The canonical fields in `ALIASES` insertion order (the iteration order of
`PATTERNS.items()` in Python 3.7+ dicts). -/
def FIELDS : List CanonicalField :=
  [.total_cholesterol, .hdl, .ldl, .triglycerides, .non_hdl, .chol_hdl_ratio,
   .glucose, .bun, .creatinine, .sodium, .potassium, .chloride, .bicarbonate,
   .calcium, .albumin, .total_protein, .alt, .ast, .alp, .bilirubin,
   .wbc, .rbc, .hgb, .hct, .mcv, .rdw, .plt, .mpv, .neut, .lymph, .mono, .eos,
   .baso, .crp]

/-! ### `_alias_to_pattern` / `_build_compiled_patterns`

`_alias_to_pattern` splits an alias on whitespace and joins the escaped words
with `\W*`, anchored by `\b` at both ends.  `_build_compiled_patterns` joins a
field's alias patterns into one alternation and appends
`.*?(?:VALUE)?\s*(?:UNIT)?`; since every piece after the alias alternation can
match empty, a compiled pattern matches a line exactly when some alias matches,
at the leftmost such position, with alternatives tried in list order. -/

/-- Python `str.strip()` (ASCII whitespace model). -/
def pyStrip (cs : List Char) : List Char :=
  ((cs.dropWhile pyIsSpace).reverse.dropWhile pyIsSpace).reverse

/-- Split on maximal whitespace runs (`re.split(r"\s+", ...)` on a stripped
string, empty parts dropped).  `fuel` bounds recursion; each step consumes at
least one character. -/
def wordsOfGo : ℕ → List Char → List (List Char)
  | 0, _ => []
  | _ + 1, [] => []
  | fuel + 1, c :: cs =>
    if pyIsSpace c then wordsOfGo fuel cs
    else
      ((c :: cs).takeWhile (fun d => !pyIsSpace d)) ::
        wordsOfGo fuel ((c :: cs).dropWhile (fun d => !pyIsSpace d))

/-- The word list of an alias: `re.split(r"\s+", alias.strip().lower())`. -/
def wordsOf (a : List Char) : List (List Char) :=
  wordsOfGo a.length (pyStrip (a.map Char.toLower))

/-- Length of the maximal `\W` run at position `j` (greedy `\W*`). -/
def nonwordRun (s : List Char) (j : ℕ) : ℕ :=
  ((s.drop j).takeWhile (fun c => !isWordChar c)).length

/-- Match the tail of an alias pattern `w1\W*w2\W*…\W*wn\b` at position `i`:
each word is a case-insensitive literal, the `\W*` gaps are tried greedily
(longest first) with full backtracking, and the trailing `\b` is part of the
attempt, exactly as the Python engine backtracks into `\W*` when the final
boundary fails. -/
def chainMatchB : List (List Char) → List Char → ℕ → Option ℕ
  | [], s, i => if pyWordBoundary s i then some i else none
  | w :: ws, s, i =>
    match litCiAt w s i with
    | none => none
    | some j =>
      match ws with
      | [] => if pyWordBoundary s j then some j else none
      | _ :: _ =>
        ((List.range (nonwordRun s j + 1)).reverse).findSome?
          (fun k => chainMatchB ws s (j + k))

/-- Match one alias pattern `\bw1\W*…\W*wn\b` at position `i`. -/
def aliasMatchAt (ws : List (List Char)) (s : List Char) (i : ℕ) : Option ℕ :=
  if pyWordBoundary s i then chainMatchB ws s i else none

/-- At position `i`, the end of the first alias of `f` (in `ALIASES` order)
whose pattern matches there — the alias alternation of the compiled pattern. -/
def aliasEndAt (f : CanonicalField) (s : List Char) (i : ℕ) : Option ℕ :=
  (ALIASES f).findSome? (fun a => aliasMatchAt (wordsOf a) s i)

/-- End position of the optional greedy `(?:(?P<val>\d+(?:\.\d+)?))?` at `i`
(`i` itself when no digit is present and the group matches empty). -/
def numLitEnd (s : List Char) (i : ℕ) : ℕ :=
  let d := digitRun s i
  if d = 0 then i else i + d + fracLen s (i + d)

/-- Length of the optional `(?:mg\/?dL|mmol\/?L)?` at `i` (no `\b` anchors in
this copy of the unit pattern; `/` tried greedily first; 0 when absent). -/
def unitLitLen (s : List Char) (i : ℕ) : ℕ :=
  if litCiHolds ['m', 'g', '/', 'd', 'l'] s i then 5
  else if litCiHolds ['m', 'g', 'd', 'l'] s i then 4
  else if litCiHolds ['m', 'm', 'o', 'l', '/', 'l'] s i then 6
  else if litCiHolds ['m', 'm', 'o', 'l', 'l'] s i then 5
  else 0

/-- `PATTERNS[f].search(ln).end()` (with `none` when there is no match): the
leftmost alias match decides; the lazy `.*?` matches empty because everything
after it is optional, so the match end is the alias end extended by the greedy
optional value, the greedy `\s*`, and the greedy optional unit. -/
def fieldSearch (f : CanonicalField) (s : List Char) : Option ℕ :=
  ((List.range (s.length + 1)).findSome? (fun i => aliasEndAt f s i)).map
    (fun e0 =>
      let e1 := numLitEnd s e0
      let e2 := e1 + wsRun s e1
      e2 + unitLitLen s e2)

/-! ### `_parse_lines` -/

/-- Split on `'\n'`, strip each line, drop empties (the source's
`[ln.strip() for ln in text.splitlines() if ln.strip()]`; the embedding
models `splitlines` for `\n`-separated text). -/
def cleanLines (text : List Char) : List (List Char) :=
  ((text.splitOn '\n').map pyStrip).filter (fun l => l ≠ [])

/-- Per-page accumulator of `_parse_lines`: canonical field to raw
measurement (value, optional unit), the Python dict as a function. -/
def FieldsRaw : Type := CanonicalField → Option (ℚ × Option (List Char))

/-- Dict assignment `out[f] = vu`. -/
def updRaw (out : FieldsRaw) (f : CanonicalField) (vu : ℚ × Option (List Char)) :
    FieldsRaw :=
  fun g => if g = f then some vu else out g

/-- The look-ahead of `_parse_lines`: scan the next lines (the caller passes at
most two) for the first line yielding a value, exactly the source's
`for j in range(1, 3)` loop with its `break`. -/
def lookaheadVal (la : List (List Char)) : Option (ℚ × Option (List Char)) :=
  la.findSome? (fun nxt => _extract_value_unit_from_line nxt)

/-- The per-(line, field) body of `_parse_lines`: if the field's pattern
matches the line, extract from the remainder of the line after the match end,
else look ahead into `la` (the next up-to-two lines). -/
def fieldLineValue (f : CanonicalField) (ln : List Char) (la : List (List Char)) :
    Option (ℚ × Option (List Char)) :=
  match fieldSearch f ln with
  | none => none
  | some e =>
    match _extract_value_unit_from_line (ln.drop e) with
    | some vu => some vu
    | none => lookaheadVal la

/-- The body of the inner field loop of `_parse_lines`: skip a resolved field
(`if canonical in out: continue`), otherwise store the line's value if any. -/
def lineStepOne (ln : List Char) (la : List (List Char)) (o : FieldsRaw)
    (f : CanonicalField) : FieldsRaw :=
  if (o f).isSome then o
  else
    match fieldLineValue f ln la with
    | some vu => updRaw o f vu
    | none => o

/-- One line of the `_parse_lines` double loop: fields in `PATTERNS` order. -/
def lineStep (ln : List Char) (la : List (List Char)) (out : FieldsRaw) : FieldsRaw :=
  FIELDS.foldl (lineStepOne ln la) out

/-- The outer loop of `_parse_lines` over the cleaned lines; the look-ahead
lines `lines[i+1], lines[i+2]` are the next two elements of the remainder. -/
def parseGo : List (List Char) → FieldsRaw → FieldsRaw
  | [], out => out
  | ln :: rest, out => parseGo rest (lineStep ln (rest.take 2) out)

/-- `_parse_lines(text)`. -/
def _parse_lines (text : List Char) : FieldsRaw :=
  parseGo (cleanLines text) (fun _ => none)

/-- Per-field view of the scan: the first line whose pattern match yields a
value (same line, else up to two look-ahead lines) resolves the field.  Used
to characterise `_parse_lines`, whose fields are resolved independently. -/
def resolveField (f : CanonicalField) : List (List Char) → Option (ℚ × Option (List Char))
  | [] => none
  | ln :: rest =>
    match fieldLineValue f ln (rest.take 2) with
    | some vu => some vu
    | none => resolveField f rest

/-! ### `_to_mgdl` and `_normalize_units` -/

/-- `re.search(r"mg/?dl", unit, re.I)`: the unit contains `mg/dl` or `mgdl`
(case-insensitive, optional slash) anywhere. -/
def searchMgdlUnit (u : List Char) : Bool :=
  (List.range (u.length + 1)).any
    (fun i => litCiHolds ['m', 'g', '/', 'd', 'l'] u i || litCiHolds ['m', 'g', 'd', 'l'] u i)

/-- `re.search(r"mmol/?l", unit, re.I)`. -/
def searchMmolUnit (u : List Char) : Bool :=
  (List.range (u.length + 1)).any
    (fun i =>
      litCiHolds ['m', 'm', 'o', 'l', '/', 'l'] u i || litCiHolds ['m', 'm', 'o', 'l', 'l'] u i)

/-- Python `round(q, 2)` on the exact rational model: round to an integer
number of hundredths (`mkRat` keeps the value kernel-computable;
`round2_eq_div` below restates it as `round (q * 100) / 100`). -/
def round2 (q : ℚ) : ℚ := mkRat (round (q * 100)) 100

/-- `CONVERSIONS_MMolL_to_MgDL["cholesterol"] = 38.67` (exact rational). -/
def CONVERSIONS_cholesterol : ℚ := mkRat 3867 100

/-- `CONVERSIONS_MMolL_to_MgDL["triglycerides"] = 88.57`. -/
def CONVERSIONS_triglycerides : ℚ := mkRat 8857 100

/-- `CONVERSIONS_MMolL_to_MgDL["glucose"] = 18.0182`. -/
def CONVERSIONS_glucose : ℚ := mkRat 180182 10000

/-- `_to_mgdl(name, value, unit)`, the source's `if` chain verbatim: absent or
mg/dL-like unit passes through; an mmol/L-like unit converts the five fields
with a defined multiplier (rounded to 2 decimals); everything else passes
through (never raises). -/
def _to_mgdl (name : CanonicalField) (value : ℚ) (unit : Option (List Char)) : ℚ :=
  match unit with
  | none => value
  | some u =>
    if searchMgdlUnit u then value
    else if searchMmolUnit u then
      if name = .total_cholesterol ∨ name = .hdl ∨ name = .ldl then
        round2 (value * CONVERSIONS_cholesterol)
      else if name = .triglycerides then round2 (value * CONVERSIONS_triglycerides)
      else if name = .glucose then round2 (value * CONVERSIONS_glucose)
      else value
    else value

/-- `_normalize_units(parsed)`: apply `_to_mgdl` to every parsed entry
(pointwise view of the source's dict comprehension loop). -/
def _normalize_units (parsed : FieldsRaw) : CanonicalField → Option ℚ :=
  fun f => (parsed f).map (fun vu => _to_mgdl f vu.1 vu.2)

/-- Dict assignment on the normalized map. -/
def updMap (m : CanonicalField → Option ℚ) (f : CanonicalField) (v : ℚ) :
    CanonicalField → Option ℚ :=
  fun g => if g = f then some v else m g

/-- The derived-metric block at the end of `parse_labs`: when
total_cholesterol and hdl are present and non_hdl is not, add the clamped
rounded difference, and when hdl is positive also the rounded ratio.  (The
source's `isinstance`/`is not None` guards are vacuously true in the typed
model: every stored value is a rational.) -/
def deriveStep (norm : CanonicalField → Option ℚ) : CanonicalField → Option ℚ :=
  match norm .total_cholesterol, norm .hdl, norm .non_hdl with
  | some tc, some h, none =>
    let n1 := updMap norm .non_hdl (max 0 (round2 (tc - h)))
    if 0 < h then updMap n1 .chol_hdl_ratio (round2 (tc / h)) else n1
  | _, _, _ => norm

/-- `parse_labs(text)`: parse, normalize units, add derived metrics. -/
def parse_labs (text : List Char) : CanonicalField → Option ℚ :=
  deriveStep (_normalize_units (_parse_lines text))

/-! ### `process_pdf_bytes` — multi-page merge

The page rasterizer and the OCR engine are external collaborators; the model
takes the per-page recognized texts (one per rendered page, in page order) as
input and performs the pipeline's own work: per-page `parse_labs`, first-page-
wins field merge, separator join and truncation of the raw text. -/

/-- Merge one page into the accumulated fields: `for k, v in part["fields"]:
if k not in merged and isinstance(v, (int, float)): merged[k] = v` (the
`isinstance` guard is vacuously true for rational values). -/
def pageStepOne (page m : CanonicalField → Option ℚ) (k : CanonicalField) :
    CanonicalField → Option ℚ :=
  match page k with
  | some v => if (m k).isSome then m else updMap m k v
  | none => m

/-- Merge one page: `pageStepOne` folded over the page's items. -/
def pageStep (merged page : CanonicalField → Option ℚ) : CanonicalField → Option ℚ :=
  FIELDS.foldl (pageStepOne page) merged

/-- Fold of `pageStep` over the pages in page-index order. -/
def mergeFields (pages : List (CanonicalField → Option ℚ)) : CanonicalField → Option ℚ :=
  pages.foldl pageStep (fun _ => none)

/-- The visible page separator `"\n\n-----\n\n"`. -/
def PAGE_SEP : List Char := "\n\n-----\n\n".data

/-- `("\n\n-----\n\n".join(texts))[:5000]`. -/
def raw_text_out (texts : List (List Char)) : List Char :=
  (List.intercalate PAGE_SEP texts).take 5000

/-- Provenance of a document result. -/
inductive Source where
  | image
  | pdf
  deriving DecidableEq

/-- The dict `process_pdf_bytes` returns. -/
structure DocumentResult where
  fields : CanonicalField → Option ℚ
  raw_text : List Char
  pages : ℕ
  source : Source
  dpi : Option ℕ

/-- `process_pdf_bytes`, abstracted over the external rasterizer and OCR
engine: `pageTexts` is the list of per-page recognized texts in page order
(empty when the rasterizer returns zero pages; the function body then runs
its loop zero times and still returns normally). -/
def process_pdf_bytes (pageTexts : List (List Char)) (dpi : ℕ) : DocumentResult :=
  { fields := mergeFields (pageTexts.map parse_labs)
    raw_text := raw_text_out pageTexts
    pages := pageTexts.length
    source := Source.pdf
    dpi := some dpi }

/-! ## Helper lemmas -/

/-- Every canonical field occurs in the `FIELDS` iteration order. -/
theorem mem_FIELDS (f : CanonicalField) : f ∈ FIELDS := by
  cases f <;> decide

/-- A step of the inner field loop leaves every other field untouched. -/
theorem lineStepOne_apply_ne (ln : List Char) (la : List (List Char)) (o : FieldsRaw)
    (g f : CanonicalField) (hfg : f ≠ g) : lineStepOne ln la o g f = o f := by
  unfold lineStepOne
  split
  · rfl
  · cases hflv : fieldLineValue g ln la with
    | some vu => simp [updRaw, hfg]
    | none => rfl

/-- A step of the inner field loop on field `f` itself resolves `f` to its
previous value, else to the line's value for `f`. -/
theorem lineStepOne_apply_self (ln : List Char) (la : List (List Char)) (o : FieldsRaw)
    (f : CanonicalField) :
    lineStepOne ln la o f f = (o f).or (fieldLineValue f ln la) := by
  unfold lineStepOne
  cases ho : o f with
  | some vu => simp [ho]
  | none =>
    cases hflv : fieldLineValue f ln la with
    | some vu => simp [ho, hflv, updRaw]
    | none => simp [ho, hflv]

/-- Pointwise description of the inner field loop over any field list. -/
theorem foldl_lineStepOne_apply (ln : List Char) (la : List (List Char))
    (fs : List CanonicalField) (out : FieldsRaw) (f : CanonicalField) :
    (fs.foldl (lineStepOne ln la) out) f =
      if f ∈ fs then (out f).or (fieldLineValue f ln la) else out f := by
  induction fs generalizing out with
  | nil => simp
  | cons g gs ih =>
    rw [List.foldl_cons, ih]
    by_cases hfg : f = g
    · subst hfg
      rw [lineStepOne_apply_self]
      by_cases hmem : f ∈ gs
      · simp only [hmem, if_true, List.mem_cons, true_or, or_true]
        cases o : out f <;> simp
      · simp [hmem, List.mem_cons]
    · rw [lineStepOne_apply_ne ln la out g f hfg]
      simp [List.mem_cons, hfg]

/-- Pointwise description of one line of `_parse_lines`. -/
theorem lineStep_apply (ln : List Char) (la : List (List Char)) (out : FieldsRaw)
    (f : CanonicalField) :
    lineStep ln la out f = (out f).or (fieldLineValue f ln la) := by
  rw [lineStep, foldl_lineStepOne_apply, if_pos (mem_FIELDS f)]

/-- The accumulating double loop of `_parse_lines` is, per field, the
first-matching-line scan `resolveField`. -/
theorem parseGo_apply (rem : List (List Char)) (out : FieldsRaw) (f : CanonicalField) :
    parseGo rem out f = (out f).or (resolveField f rem) := by
  induction rem generalizing out with
  | nil => cases h : out f <;> simp [parseGo, h, resolveField]
  | cons ln rest ih =>
    rw [parseGo, ih, lineStep_apply, resolveField]
    cases h : out f with
    | some vu => simp
    | none =>
      simp only [Option.none_or]
      cases hflv : fieldLineValue f ln (rest.take 2) <;> simp

/-- Per-field characterisation of `_parse_lines`. -/
theorem parse_lines_eq_resolveField (text : List Char) (f : CanonicalField) :
    _parse_lines text f = resolveField f (cleanLines text) := by
  rw [_parse_lines, parseGo_apply]
  simp

/-- A merge step leaves every other field untouched. -/
theorem pageStepOne_apply_ne (page m : CanonicalField → Option ℚ) (k f : CanonicalField)
    (hfk : f ≠ k) : pageStepOne page m k f = m f := by
  unfold pageStepOne
  cases page k with
  | some v =>
    simp only []
    split
    · rfl
    · simp [updMap, hfk]
  | none => rfl

/-- A merge step on field `f` itself keeps the accumulated value, else takes
the page's. -/
theorem pageStepOne_apply_self (page m : CanonicalField → Option ℚ) (f : CanonicalField) :
    pageStepOne page m f f = (m f).or (page f) := by
  unfold pageStepOne
  cases hp : page f with
  | some v =>
    cases hm : m f with
    | some w => simp [hm]
    | none => simp [hm, updMap]
  | none => cases hm : m f <;> simp [hm]

/-- Pointwise description of the per-page item loop of the merge. -/
theorem foldl_pageStepOne_apply (page : CanonicalField → Option ℚ)
    (fs : List CanonicalField) (m : CanonicalField → Option ℚ) (f : CanonicalField) :
    (fs.foldl (pageStepOne page) m) f = if f ∈ fs then (m f).or (page f) else m f := by
  induction fs generalizing m with
  | nil => simp
  | cons k ks ih =>
    rw [List.foldl_cons, ih]
    by_cases hfk : f = k
    · subst hfk
      rw [pageStepOne_apply_self]
      by_cases hmem : f ∈ ks
      · simp only [hmem, if_true, List.mem_cons, true_or, or_true]
        cases hm : m f <;> simp
      · simp [hmem, List.mem_cons]
    · rw [pageStepOne_apply_ne page m k f hfk]
      simp [List.mem_cons, hfk]

/-- Pointwise description of merging one page. -/
theorem pageStep_apply (merged page : CanonicalField → Option ℚ) (f : CanonicalField) :
    pageStep merged page f = (merged f).or (page f) := by
  rw [pageStep, foldl_pageStepOne_apply, if_pos (mem_FIELDS f)]

/-- The page-by-page merge is, per field, the first page that resolved it. -/
theorem foldl_pageStep_apply (pages : List (CanonicalField → Option ℚ))
    (init : CanonicalField → Option ℚ) (f : CanonicalField) :
    (pages.foldl pageStep init) f = (init f).or ((pages.map (fun p => p f)).findSome? id) := by
  induction pages generalizing init with
  | nil => cases h : init f <;> simp [h]
  | cons p ps ih =>
    rw [List.foldl_cons, ih, pageStep_apply]
    cases h : init f with
    | some v => simp
    | none =>
      simp only [Option.none_or, List.map_cons, List.findSome?_cons]
      cases hp : p f <;> simp

/-- `_extract_value_unit_from_line`'s loop returns the head of the standalone
tokens (those whose window does not match `_RANGE_RX`). -/
theorem extractGo_eq_filter_head (s : List Char) (tks : List (ℕ × ℕ)) :
    extractGo s tks =
      ((tks.filter (fun tk => !rangeSearch (window s tk.1 tk.2))).head?).map
        (fun tk => (decVal (slice s tk.1 tk.2), unitSearch (slice s tk.2 (tk.2 + 20)))) := by
  induction tks with
  | nil => rfl
  | cons tk rest ih =>
    obtain ⟨st, en⟩ := tk
    rw [extractGo]
    by_cases h : rangeSearch (window s st en)
    · rw [if_pos h, ih, List.filter_cons]
      simp [h]
    · rw [if_neg h, List.filter_cons]
      simp [h]

/-- `round2` as a division (for order reasoning). -/
theorem round2_eq_div (q : ℚ) : round2 q = ((round (q * 100) : ℤ) : ℚ) / 100 := by
  rw [round2, Rat.mkRat_eq_div]
  norm_num

/-- Rounding to hundredths preserves non-negativity. -/
theorem round2_nonneg (q : ℚ) (hq : 0 ≤ q) : 0 ≤ round2 q := by
  rw [round2_eq_div]
  apply div_nonneg _ (by norm_num)
  have : (0 : ℤ) ≤ round (q * 100) := by
    rw [round_eq]
    exact Int.le_floor.mpr (by push_cast; linarith)
  exact_mod_cast this

/-- Rounding to hundredths preserves non-positivity. -/
theorem round2_nonpos (q : ℚ) (hq : q ≤ 0) : round2 q ≤ 0 := by
  rw [round2_eq_div]
  apply div_nonpos_of_nonpos_of_nonneg _ (by norm_num)
  have : round (q * 100) ≤ 0 := by
    rw [round_eq]
    have h1 : q * 100 + 1 / 2 < 1 := by linarith
    have := Int.floor_lt.mpr (show q * 100 + 1 / 2 < ((1 : ℤ) : ℚ) by push_cast; linarith)
    omega
  exact_mod_cast this

/-- Rounding to hundredths fixes 0. -/
theorem round2_zero : round2 0 = 0 := by
  rw [round2_eq_div]
  simp

/-- Clamping at zero commutes with rounding to hundredths (so the source's
`max(0.0, round(tc - h, 2))` equals the spec's "max(0, tc − hdl) rounded to 2
decimals"). -/
theorem max_zero_round2 (x : ℚ) : max 0 (round2 x) = round2 (max 0 x) := by
  rcases le_total 0 x with hx | hx
  · rw [max_eq_right hx, max_eq_right (round2_nonneg x hx)]
  · rw [max_eq_left hx, max_eq_left (round2_nonpos x hx), round2_zero]

/-- Decimal tokens denote non-negative rationals. -/
theorem decVal_nonneg (cs : List Char) : 0 ≤ decVal cs := by
  rw [decVal, Rat.mkRat_eq_div]
  positivity

/-- Values produced by the extraction loop are non-negative. -/
theorem extractGo_nonneg (s : List Char) (tks : List (ℕ × ℕ)) (v : ℚ)
    (u : Option (List Char)) (h : extractGo s tks = some (v, u)) : 0 ≤ v := by
  induction tks with
  | nil => simp [extractGo] at h
  | cons tk rest ih =>
    obtain ⟨st, en⟩ := tk
    rw [extractGo] at h
    by_cases hr : rangeSearch (window s st en)
    · rw [if_pos hr] at h
      exact ih h
    · rw [if_neg hr] at h
      obtain ⟨hv, _⟩ := Prod.mk.injEq .. ▸ (Option.some.injEq .. ▸ h)
      exact hv ▸ decVal_nonneg _

/-- Values produced by `_extract_value_unit_from_line` are non-negative. -/
theorem extract_nonneg (s : List Char) (v : ℚ) (u : Option (List Char))
    (h : _extract_value_unit_from_line s = some (v, u)) : 0 ≤ v :=
  extractGo_nonneg s (numberTokens s) v u h

/-- Values produced by a line match (with look-ahead) are non-negative. -/
theorem fieldLineValue_nonneg (f : CanonicalField) (ln : List Char)
    (la : List (List Char)) (v : ℚ) (u : Option (List Char))
    (h : fieldLineValue f ln la = some (v, u)) : 0 ≤ v := by
  unfold fieldLineValue at h
  rcases he : fieldSearch f ln with _ | e <;> rw [he] at h <;> dsimp only at h
  · exact absurd h (by simp)
  · rcases hx : _extract_value_unit_from_line (ln.drop e) with _ | vu <;>
      rw [hx] at h <;> dsimp only at h
    · simp only [lookaheadVal] at h
      obtain ⟨nxt, _, hnxt⟩ := List.exists_of_findSome?_eq_some h
      exact extract_nonneg nxt v u hnxt
    · rw [h] at hx
      exact extract_nonneg _ v u hx

/-- Values resolved by the per-field scan are non-negative. -/
theorem resolveField_nonneg (f : CanonicalField) (lines : List (List Char)) (v : ℚ)
    (u : Option (List Char)) (h : resolveField f lines = some (v, u)) : 0 ≤ v := by
  induction lines with
  | nil => simp [resolveField] at h
  | cons ln rest ih =>
    rw [resolveField] at h
    rcases hflv : fieldLineValue f ln (rest.take 2) with _ | vu <;>
      rw [hflv] at h <;> dsimp only at h
    · exact ih h
    · rw [h] at hflv
      exact fieldLineValue_nonneg f ln (rest.take 2) v u hflv

/-- The conversion multipliers are non-negative. -/
theorem conversions_nonneg :
    0 ≤ CONVERSIONS_cholesterol ∧ 0 ≤ CONVERSIONS_triglycerides ∧ 0 ≤ CONVERSIONS_glucose := by
  refine ⟨?_, ?_, ?_⟩ <;>
    simp only [CONVERSIONS_cholesterol, CONVERSIONS_triglycerides, CONVERSIONS_glucose,
      Rat.mkRat_eq_div] <;> norm_num

/-- Unit normalization preserves non-negativity. -/
theorem to_mgdl_nonneg (name : CanonicalField) (v : ℚ) (u : Option (List Char))
    (hv : 0 ≤ v) : 0 ≤ _to_mgdl name v u := by
  obtain ⟨hc, ht, hg⟩ := conversions_nonneg
  rcases u with _ | u
  · simp only [_to_mgdl]
    exact hv
  · simp only [_to_mgdl]
    split_ifs
    · exact hv
    · exact round2_nonneg _ (mul_nonneg hv hc)
    · exact round2_nonneg _ (mul_nonneg hv ht)
    · exact round2_nonneg _ (mul_nonneg hv hg)
    · exact hv
    · exact hv

/-- Every value in the normalized per-page map is non-negative. -/
theorem normalize_nonneg (text : List Char) (f : CanonicalField) (v : ℚ)
    (h : _normalize_units (_parse_lines text) f = some v) : 0 ≤ v := by
  rw [_normalize_units] at h
  rcases hp : _parse_lines text f with _ | vu
  · rw [hp] at h; exact absurd h (by simp)
  · rw [hp] at h
    simp only [Option.map_some', Option.some.injEq] at h
    have hraw : 0 ≤ vu.1 := by
      rw [parse_lines_eq_resolveField] at hp
      exact resolveField_nonneg f (cleanLines text) vu.1 vu.2 (by rw [← hp])
    exact h ▸ to_mgdl_nonneg f vu.1 vu.2 hraw

/-! ## Spec-side alias occurrence (for the alias-pattern claim)

`SpecOccursWith sep` renders the spec's sentence "the alias's words appear in
the line in order, separated by arbitrary `sep` characters, anchored at word
boundaries on both ends" as a predicate; the claim's own wording uses
non-letter separators, the alias patterns of the source use `\W*`
(non-word). -/

/-- Non-word characters (what `\W` matches). -/
def nonWordB (c : Char) : Bool := !isWordChar c

/-- Non-letter characters (the claim's words for the separators). -/
def nonLetterB (c : Char) : Bool := !c.isAlpha

/-- The words appear in order from position `i` to `e`, consecutive words
separated by a block of characters satisfying `sep`. -/
def SpecChain (sep : Char → Bool) : List (List Char) → List Char → ℕ → ℕ → Prop
  | [], _, i, e => e = i
  | w :: ws, s, i, e =>
    match ws with
    | [] => litCiAt w s i = some e
    | _ :: _ =>
      ∃ j k, litCiAt w s i = some j ∧ ((s.drop j).take k).length = k ∧
        (∀ c ∈ (s.drop j).take k, sep c = true) ∧ SpecChain sep ws s (j + k) e

/-- Some occurrence of the word chain in `s`, word-boundary anchored at both
ends. -/
def SpecOccursWith (sep : Char → Bool) (ws : List (List Char)) (s : List Char) : Prop :=
  ∃ i e, pyWordBoundary s i = true ∧ SpecChain sep ws s i e ∧ pyWordBoundary s e = true

/-- `re.search` of one alias pattern `\bw1\W*…\W*wn\b`: some start position
matches (the single-alias matcher built by `_alias_to_pattern`). -/
def aliasOccurs (a s : List Char) : Bool :=
  (List.range (s.length + 1)).any (fun i => (aliasMatchAt (wordsOf a) s i).isSome)

/-- A `takeWhile` run is no longer than the list. -/
theorem length_takeWhile_le' (p : α → Bool) (l : List α) :
    (l.takeWhile p).length ≤ l.length := by
  have h := congrArg List.length (List.takeWhile_append_dropWhile (p := p) (l := l))
  rw [List.length_append] at h
  omega

/-- Within the maximal `p`-run, `take` factors through `takeWhile`. -/
theorem take_eq_take_takeWhile (p : α → Bool) (l : List α) (k : ℕ)
    (h : k ≤ (l.takeWhile p).length) : l.take k = (l.takeWhile p).take k := by
  conv_lhs => rw [← List.takeWhile_append_dropWhile (p := p) (l := l)]
  rw [List.take_append_eq_append_take, Nat.sub_eq_zero_of_le h, List.take_zero,
    List.append_nil]

/-- Members of a `takeWhile` run satisfy the predicate. -/
theorem of_mem_takeWhile {p : α → Bool} {l : List α} {x : α}
    (h : x ∈ l.takeWhile p) : p x = true := by
  induction l with
  | nil => simp [List.takeWhile] at h
  | cons a as ih =>
    rw [List.takeWhile_cons] at h
    by_cases hpa : p a
    · rw [if_pos hpa] at h
      rcases List.mem_cons.mp h with rfl | h2
      · exact hpa
      · exact ih h2
    · rw [if_neg hpa] at h
      simp at h

/-- An all-`p` prefix of length `k` forces the maximal `p`-run to reach `k`. -/
theorem le_length_takeWhile_of_all (p : α → Bool) :
    ∀ (k : ℕ) (l : List α), (l.take k).length = k → (∀ c ∈ l.take k, p c = true) →
      k ≤ (l.takeWhile p).length
  | 0, _, _, _ => Nat.zero_le _
  | k + 1, [], hlen, _ => by simp at hlen
  | k + 1, a :: as, hlen, hall => by
    have hpa : p a = true := hall a (by simp)
    rw [List.takeWhile_cons_of_pos hpa]
    simp only [List.take_succ_cons, List.length_cons, Nat.add_right_cancel_iff] at hlen
    have : ∀ c ∈ as.take k, p c = true := fun c hc => hall c (by simp [hc])
    simpa using le_length_takeWhile_of_all p k as hlen this

/-- Positions past the end of the string hold no word character. -/
theorem isWordAt_eq_false_of_le (s : List Char) (i : ℕ) (h : s.length ≤ i) :
    isWordAt s i = false := by
  unfold isWordAt charAt
  rw [List.getElem?_eq_none h]

/-- A word boundary can only hold inside the string (including its end). -/
theorem pyWordBoundary_le (s : List Char) (i : ℕ) (h : pyWordBoundary s i = true) :
    i ≤ s.length := by
  by_contra hlt
  push_neg at hlt
  rcases i with _ | j
  · omega
  · have h1 : isWordAt s (j + 1) = false := isWordAt_eq_false_of_le s (j + 1) (by omega)
    have h2 : isWordAt s j = false := isWordAt_eq_false_of_le s j (by omega)
    rw [pyWordBoundary.eq_def] at h
    dsimp only at h
    rw [h1, h2] at h
    simp at h

/-- Soundness of the backtracking matcher: a reported match end is a valid
word chain with non-word separator blocks and a final word boundary. -/
theorem chainMatchB_sound :
    ∀ (ws : List (List Char)) (s : List Char) (i e : ℕ),
      chainMatchB ws s i = some e →
      SpecChain nonWordB ws s i e ∧ pyWordBoundary s e = true
  | [], s, i, e, h => by
    rw [chainMatchB] at h
    split at h
    · rename_i hb
      obtain rfl : i = e := by simpa using h
      exact ⟨rfl, hb⟩
    · simp at h
  | w :: ws, s, i, e, h => by
    rw [chainMatchB] at h
    rcases hlit : litCiAt w s i with _ | j <;> rw [hlit] at h <;> dsimp only at h
    · simp at h
    · rcases ws with _ | ⟨w2, rest⟩
      · dsimp only at h
        split at h
        · rename_i hb
          obtain rfl : j = e := by simpa using h
          exact ⟨hlit, hb⟩
        · simp at h
      · dsimp only at h
        obtain ⟨k, hkmem, hk⟩ := List.exists_of_findSome?_eq_some h
        have hkle : k ≤ nonwordRun s j := by
          rw [List.mem_reverse, List.mem_range] at hkmem
          omega
        obtain ⟨hchain, hbe⟩ := chainMatchB_sound (w2 :: rest) s (j + k) e hk
        refine ⟨⟨j, k, hlit, ?_, ?_, hchain⟩, hbe⟩
        · rw [List.length_take]
          have := length_takeWhile_le' (fun c => !isWordChar c) (s.drop j)
          rw [nonwordRun] at hkle
          omega
        · intro c hc
          rw [take_eq_take_takeWhile _ _ _ (by rw [nonwordRun] at hkle; exact hkle)] at hc
          exact of_mem_takeWhile (List.take_subset _ _ hc)

/-- Completeness of the backtracking matcher: any valid chain with non-word
separators and a final boundary is found (possibly at a different end). -/
theorem chainMatchB_complete :
    ∀ (ws : List (List Char)) (s : List Char) (i e : ℕ),
      SpecChain nonWordB ws s i e → pyWordBoundary s e = true →
      ∃ e2, chainMatchB ws s i = some e2
  | [], s, i, e, hc, hb => by
    obtain rfl : e = i := hc
    exact ⟨e, by rw [chainMatchB, if_pos hb]⟩
  | w :: ws, s, i, e, hc, hb => by
    rcases ws with _ | ⟨w2, rest⟩
    · have hlit : litCiAt w s i = some e := hc
      refine ⟨e, ?_⟩
      rw [chainMatchB, hlit]
      dsimp only
      rw [if_pos hb]
    · obtain ⟨j, k, hlit, hlen, hall, hchain⟩ := hc
      obtain ⟨e2, he2⟩ := chainMatchB_complete (w2 :: rest) s (j + k) e hchain hb
      have hkle : k ≤ nonwordRun s j :=
        le_length_takeWhile_of_all _ k (s.drop j) hlen hall
      have hkmem : k ∈ (List.range (nonwordRun s j + 1)).reverse := by
        rw [List.mem_reverse, List.mem_range]
        omega
      rcases hfs : ((List.range (nonwordRun s j + 1)).reverse).findSome?
          (fun k2 => chainMatchB (w2 :: rest) s (j + k2)) with _ | e3
      · exact absurd (List.findSome?_eq_none_iff.mp hfs k hkmem) (by rw [he2]; simp)
      · refine ⟨e3, ?_⟩
        rw [chainMatchB, hlit]
        exact hfs

/-- One alias's compiled pattern finds a match in `s` exactly when the alias's
words occur in order with non-word separator blocks, word-boundary anchored. -/
theorem aliasOccurs_iff_spec (a s : List Char) :
    aliasOccurs a s = true ↔ SpecOccursWith nonWordB (wordsOf a) s := by
  rw [aliasOccurs, List.any_eq_true]
  constructor
  · rintro ⟨i, _, hsome⟩
    rw [aliasMatchAt] at hsome
    split at hsome
    · rename_i hbi
      obtain ⟨e, he⟩ := Option.isSome_iff_exists.mp hsome
      obtain ⟨hchain, hbe⟩ := chainMatchB_sound (wordsOf a) s i e he
      exact ⟨i, e, hbi, hchain, hbe⟩
    · simp at hsome
  · rintro ⟨i, e, hbi, hchain, hbe⟩
    obtain ⟨e2, he2⟩ := chainMatchB_complete (wordsOf a) s i e hchain hbe
    refine ⟨i, List.mem_range.mpr (by have := pyWordBoundary_le s i hbi; omega), ?_⟩
    rw [aliasMatchAt, if_pos hbi, he2]
    rfl

/-- `findSome?` succeeds on a list exactly when it succeeds on a member. -/
theorem findSome?_isSome_iff (f : α → Option β) (l : List α) :
    (l.findSome? f).isSome = true ↔ ∃ a ∈ l, (f a).isSome = true := by
  constructor
  · intro h
    obtain ⟨b, hb⟩ := Option.isSome_iff_exists.mp h
    obtain ⟨a, ha, hfa⟩ := List.exists_of_findSome?_eq_some hb
    exact ⟨a, ha, by rw [hfa]; rfl⟩
  · rintro ⟨a, ha, hfa⟩
    rcases hfs : l.findSome? f with _ | b
    · rw [List.findSome?_eq_none_iff.mp hfs a ha] at hfa
      simp at hfa
    · rfl

/-- The compiled field pattern (the alias alternation) matches `s` exactly
when some alias of the field occurs per `SpecOccursWith nonWordB`. -/
theorem fieldSearch_isSome_iff (f : CanonicalField) (s : List Char) :
    (fieldSearch f s).isSome = true ↔
      ∃ a ∈ ALIASES f, SpecOccursWith nonWordB (wordsOf a) s := by
  rw [fieldSearch, Option.isSome_map', findSome?_isSome_iff]
  constructor
  · rintro ⟨i, hi, hsome⟩
    rw [aliasEndAt] at hsome
    obtain ⟨a, ha, hm⟩ := (findSome?_isSome_iff _ _).mp hsome
    refine ⟨a, ha, ?_⟩
    rw [← aliasOccurs_iff_spec, aliasOccurs, List.any_eq_true]
    exact ⟨i, hi, hm⟩
  · rintro ⟨a, ha, hspec⟩
    obtain ⟨i, hi, hm⟩ := List.any_eq_true.mp ((aliasOccurs_iff_spec a s).mpr hspec)
    refine ⟨i, hi, ?_⟩
    rw [aliasEndAt]
    exact (findSome?_isSome_iff _ _).mpr ⟨a, ha, hm⟩

/-! ## Spec-side numeric-range pattern (for the range-rejection claim)

The claim describes `_RANGE_RX` as "two numbers joined by a dash, an en-dash,
'to', or '~'".  The source pattern's second alternative is not an en-dash: it
is the three-character mojibake sequence U+00E2 U+20AC U+201C (the UTF-8 bytes
of U+2013 read as Latin-1).  The following definitions render the claim's
words, with a real en-dash, for comparison with `rangeMatchAt`. -/

/-- Modelled from the spec: the separator alternation with a real en-dash. -/
def spec_sepLen (s : List Char) (p : ℕ) : Option ℕ :=
  if litCiHolds ['-'] s p then some 1
  else if litCiHolds [enDash] s p then some 1
  else if litCiHolds ['t', 'o'] s p then some 2
  else if litCiHolds ['~'] s p then some 1
  else none

/-- Modelled from the spec: `rangeMatchAt` with the spec's separator set. -/
def specRangeMatchAt (s : List Char) (i : ℕ) : Bool :=
  pyWordBoundary s i &&
  (let d1 := digitRun s i
   d1 != 0 &&
   (let p1 := i + d1 + fracLen s (i + d1)
    let p2 := p1 + wsRun s p1
    match spec_sepLen s p2 with
    | none => false
    | some L =>
      let p3 := p2 + L + wsRun s (p2 + L)
      let d2 := digitRun s p3
      d2 != 0 && (fracLen s (p3 + d2) != 0 || pyWordBoundary s (p3 + d2))))

/-- Modelled from the spec: search of the spec's range pattern. -/
def specRangeSearch (s : List Char) : Bool :=
  (List.range (s.length + 1)).any (fun i => specRangeMatchAt s i)

/-- Modelled from the spec: the first numeric token standalone with respect to
the spec's range pattern, with its value and unit — what the claim says
`_extract_value_unit_from_line` returns. -/
def specStandaloneHead (s : List Char) : Option (ℚ × Option (List Char)) :=
  ((numberTokens s).filter (fun tk => !specRangeSearch (window s tk.1 tk.2))).head?.map
    (fun tk => (decVal (slice s tk.1 tk.2), unitSearch (slice s tk.2 (tk.2 + 20))))

/-- The cholesterol multiplier is the decimal 38.67. -/
theorem conv_chol_val : CONVERSIONS_cholesterol = (38.67 : ℚ) := by
  simp only [CONVERSIONS_cholesterol, Rat.mkRat_eq_div]
  norm_num

/-- The triglycerides multiplier is the decimal 88.57. -/
theorem conv_tg_val : CONVERSIONS_triglycerides = (88.57 : ℚ) := by
  simp only [CONVERSIONS_triglycerides, Rat.mkRat_eq_div]
  norm_num

/-- The glucose multiplier is the decimal 18.0182. -/
theorem conv_glu_val : CONVERSIONS_glucose = (18.0182 : ℚ) := by
  simp only [CONVERSIONS_glucose, Rat.mkRat_eq_div]
  norm_num

end OcrPipeline

set_option maxRecDepth 400000

namespace OcrPipeline

/-! ## Claims -/

/-- C1, counterexample.  The claim reads `_RANGE_RX` as "two numbers joined by
a dash, an en-dash, 'to', or '~'", but the pattern's second alternative is the
three-character mojibake U+00E2 U+20AC U+201C, not an en-dash: on the line
`"40 – 60"` (a real en-dash U+2013), the extractor returns the value 40,
whereas under the claim's range pattern both numbers sit inside a range and no
standalone token exists. -/
theorem claim_C1_cex :
    _extract_value_unit_from_line "40 – 60".data = some (40, none) ∧
    specStandaloneHead "40 – 60".data = none :=
  ⟨by decide, by decide⟩

/-- C1, amended.  `_extract_value_unit_from_line` returns the first numeric
token that is standalone — the window of ±6 characters around it does not
match `_RANGE_RX`, i.e. two numbers joined by a hyphen, the mojibake sequence
U+00E2 U+20AC U+201C (a mis-decoded en-dash), `to`, or `~` — with its unit
searched in the 20 characters to its right; and the input
`"HDL Cholesterol 40 - 60 mg/dL   HDL 45"` resolves hdl = 45, not 40 or 60. -/
theorem claim_C1 :
    (∀ s : List Char,
      _extract_value_unit_from_line s =
        ((numberTokens s).filter (fun tk => !rangeSearch (window s tk.1 tk.2))).head?.map
          (fun tk => (decVal (slice s tk.1 tk.2), unitSearch (slice s tk.2 (tk.2 + 20))))) ∧
    parse_labs "HDL Cholesterol 40 - 60 mg/dL   HDL 45".data .hdl = some 45 :=
  ⟨fun s => extractGo_eq_filter_head s (numberTokens s), by decide⟩

/-- C2.  Per field, `_parse_lines` resolves from the first line whose alias
match yields a value, where a match with no standalone value on its own line
searches exactly the next two lines (`resolveField` look-ahead is
`rest.take 2`) under the same range-rejection rule; the two lines
`["Total Cholesterol", "198 mg/dL"]` resolve total_cholesterol = 198, while a
value only three lines below the alias match leaves the field unresolved. -/
theorem claim_C2 :
    (∀ (text : List Char) (f : CanonicalField),
      _parse_lines text f = resolveField f (cleanLines text)) ∧
    parse_labs "Total Cholesterol\n198 mg/dL".data .total_cholesterol = some 198 ∧
    parse_labs "Total Cholesterol\nabc\nxyz\n198".data .total_cholesterol = none :=
  ⟨parse_lines_eq_resolveField, by decide, by decide⟩

/-- C3, counterexample.  The claim says the compiled matcher matches exactly
when the alias's words appear in order separated by arbitrary non-letter
characters: the alias `"chol total"` of total_cholesterol occurs in
`"chol1total"` in that sense (the separator is the digit `1`, a non-letter,
and both ends sit on word boundaries), yet the compiled pattern does not
match, because `\W*` does not match a digit. -/
theorem claim_C3_cex :
    "chol total".data ∈ ALIASES .total_cholesterol ∧
    SpecOccursWith nonLetterB (wordsOf "chol total".data) "chol1total".data ∧
    fieldSearch .total_cholesterol "chol1total".data = none := by
  refine ⟨by decide, ?_, by decide⟩
  have hw : wordsOf "chol total".data = ["chol".data, "total".data] := by decide
  rw [hw]
  refine ⟨0, 10, by decide, ?_, by decide⟩
  rw [SpecChain]
  dsimp only
  refine ⟨4, 1, by decide, by decide, ?_, ?_⟩
  · intro c hc
    have h1 : (("chol1total".data).drop 4).take 1 = ['1'] := by decide
    rw [h1] at hc
    simp only [List.mem_singleton] at hc
    subst hc
    decide
  · rw [SpecChain]
    decide

/-- C3, amended.  Each alias's compiled pattern matches a line exactly when
the alias's words appear in order separated by arbitrary non-word characters
(anything other than a letter, digit or underscore), anchored at word
boundaries on both ends; a field's compiled matcher matches exactly when some
alias of the field so occurs; and both `"Cholesterol, Total: 198 mg/dL"` and
`"TOTAL CHOLESTEROL 198"` resolve total_cholesterol = 198. -/
theorem claim_C3 :
    (∀ (f : CanonicalField) (a : List Char), a ∈ ALIASES f →
      ∀ s : List Char, (aliasOccurs a s = true ↔ SpecOccursWith nonWordB (wordsOf a) s)) ∧
    (∀ (f : CanonicalField) (s : List Char),
      ((fieldSearch f s).isSome = true ↔
        ∃ a ∈ ALIASES f, SpecOccursWith nonWordB (wordsOf a) s)) ∧
    parse_labs "Cholesterol, Total: 198 mg/dL".data .total_cholesterol = some 198 ∧
    parse_labs "TOTAL CHOLESTEROL 198".data .total_cholesterol = some 198 :=
  ⟨fun _ a _ s => aliasOccurs_iff_spec a s, fieldSearch_isSome_iff, by decide, by decide⟩

/-- C3, witness: the alias `"hdl"` of the hdl field, matched by its compiled
pattern on `"HDL 45"`, indeed occurs there in the amended sense. -/
theorem claim_C3_wit :
    SpecOccursWith nonWordB (wordsOf "hdl".data) "HDL 45".data :=
  (claim_C3.1 .hdl "hdl".data (by decide) "HDL 45".data).mp (by decide)

/-- C4.  `_to_mgdl` passes the value through when the unit is absent or
denotes mg/dL; multiplies by the field's multiplier (38.67 for
total_cholesterol, hdl, ldl; 88.57 for triglycerides; 18.0182 for glucose)
and rounds to 2 decimals when the unit denotes mmol/L; passes through in
every other case (a total function — an unknown unit never raises); and hdl
read as 1.3 mmol/L yields 50.27. -/
theorem claim_C4 :
    (∀ (name : CanonicalField) (v : ℚ), _to_mgdl name v none = v) ∧
    (∀ (name : CanonicalField) (v : ℚ) (u : List Char), searchMgdlUnit u = true →
      _to_mgdl name v (some u) = v) ∧
    (∀ (v : ℚ) (u : List Char), searchMgdlUnit u = false → searchMmolUnit u = true →
      _to_mgdl .total_cholesterol v (some u) = round2 (v * (38.67 : ℚ)) ∧
      _to_mgdl .hdl v (some u) = round2 (v * (38.67 : ℚ)) ∧
      _to_mgdl .ldl v (some u) = round2 (v * (38.67 : ℚ)) ∧
      _to_mgdl .triglycerides v (some u) = round2 (v * (88.57 : ℚ)) ∧
      _to_mgdl .glucose v (some u) = round2 (v * (18.0182 : ℚ))) ∧
    (∀ (name : CanonicalField) (v : ℚ) (u : List Char),
      searchMgdlUnit u = false → searchMmolUnit u = true →
      name ≠ .total_cholesterol → name ≠ .hdl → name ≠ .ldl →
      name ≠ .triglycerides → name ≠ .glucose → _to_mgdl name v (some u) = v) ∧
    (∀ (name : CanonicalField) (v : ℚ) (u : List Char),
      searchMgdlUnit u = false → searchMmolUnit u = false → _to_mgdl name v (some u) = v) ∧
    _to_mgdl .hdl (1.3 : ℚ) (some "mmol/L".data) = (50.27 : ℚ) := by
  refine ⟨fun name v => rfl, ?_, ?_, ?_, ?_, ?_⟩
  · intro name v u hmg
    simp [_to_mgdl, hmg]
  · intro v u hmg hml
    refine ⟨?_, ?_, ?_, ?_, ?_⟩ <;>
      simp [_to_mgdl, hmg, hml, conv_chol_val, conv_tg_val, conv_glu_val]
  · intro name v u hmg hml h1 h2 h3 h4 h5
    simp [_to_mgdl, hmg, hml, h1, h2, h3, h4, h5]
  · intro name v u hmg hml
    simp [_to_mgdl, hmg, hml]
  · have h1 : searchMgdlUnit "mmol/L".data = false := by decide
    have h2 : searchMmolUnit "mmol/L".data = true := by decide
    simp only [_to_mgdl, h1, h2]
    rw [if_pos (Or.inr (Or.inl trivial)), conv_chol_val]
    have hm : (1.3 : ℚ) * 38.67 = 50.271 := by norm_num
    rw [hm, round2]
    have hr : round ((50.271 : ℚ) * 100) = 5027 := by
      have hx : (50.271 : ℚ) * 100 = 5027.1 := by norm_num
      rw [hx, round_eq]
      norm_num [Int.floor_eq_iff]
    rw [hr]
    simp only [Rat.mkRat_eq_div]
    norm_num

/-- C4, witness: a concrete mg/dL unit passes an hdl value of 7 through
unchanged. -/
theorem claim_C4_wit :
    searchMgdlUnit "mg/dL".data = true ∧ _to_mgdl .hdl 7 (some "mg/dL".data) = 7 :=
  ⟨by decide, claim_C4.2.1 .hdl 7 "mg/dL".data (by decide)⟩

/-- C5.  On a unit-normalized map with total_cholesterol and hdl present and
non_hdl absent, the derived-metric step sets non_hdl to max(0, tc − hdl)
rounded to 2 decimals; exactly when additionally hdl > 0 it sets
chol_hdl_ratio to tc / hdl rounded to 2 decimals (otherwise the ratio entry is
left exactly as it was, in particular absent when it was absent); no other
field changes; and when the guard fails the map is unchanged entirely. -/
theorem claim_C5 :
    (∀ (norm : CanonicalField → Option ℚ) (tc h : ℚ),
      norm .total_cholesterol = some tc → norm .hdl = some h → norm .non_hdl = none →
      deriveStep norm .non_hdl = some (round2 (max 0 (tc - h))) ∧
      (0 < h → deriveStep norm .chol_hdl_ratio = some (round2 (tc / h))) ∧
      (¬ 0 < h → deriveStep norm .chol_hdl_ratio = norm .chol_hdl_ratio) ∧
      (∀ g, g ≠ .non_hdl → g ≠ .chol_hdl_ratio → deriveStep norm g = norm g)) ∧
    (∀ norm : CanonicalField → Option ℚ,
      norm .total_cholesterol = none ∨ norm .hdl = none ∨ (norm .non_hdl).isSome = true →
      deriveStep norm = norm) := by
  constructor
  · intro norm tc h h1 h2 h3
    have hds : deriveStep norm =
        (if 0 < h then
          updMap (updMap norm .non_hdl (max 0 (round2 (tc - h)))) .chol_hdl_ratio
            (round2 (tc / h))
        else updMap norm .non_hdl (max 0 (round2 (tc - h)))) := by
      rw [deriveStep.eq_def, h1, h2, h3]
    refine ⟨?_, ?_, ?_, ?_⟩
    · rw [hds]
      split_ifs <;> simp [updMap, max_zero_round2]
    · intro hh
      rw [hds, if_pos hh]
      simp [updMap]
    · intro hh
      rw [hds, if_neg hh]
      simp [updMap]
    · intro g hg1 hg2
      rw [hds]
      split_ifs <;> simp [updMap, hg1, hg2]
  · intro norm hd
    rcases htc : norm .total_cholesterol with _ | tc <;>
      rcases hh : norm .hdl with _ | hv <;>
        rcases hnh : norm .non_hdl with _ | nh <;>
          rw [deriveStep.eq_def, htc, hh, hnh] <;> try rfl
    rcases hd with h | h | h
    · rw [htc] at h
      exact absurd h (by simp)
    · rw [hh] at h
      exact absurd h (by simp)
    · rw [hnh] at h
      simp at h

/-- C5, witness: total_cholesterol = 200 and hdl = 50 yield non_hdl = 150 and
chol_hdl_ratio = 4. -/
theorem claim_C5_wit :
    deriveStep (updMap (updMap (fun _ => none) .total_cholesterol 200) .hdl 50) .non_hdl
      = some 150 ∧
    deriveStep (updMap (updMap (fun _ => none) .total_cholesterol 200) .hdl 50)
      .chol_hdl_ratio = some 4 := by
  obtain ⟨hn, hr, _, _⟩ :=
    claim_C5.1 (updMap (updMap (fun _ => none) .total_cholesterol 200) .hdl 50) 200 50
      rfl rfl rfl
  constructor
  · rw [hn]
    have h1 : max (0 : ℚ) (200 - 50) = 150 := by norm_num
    rw [h1, round2]
    have h2 : (150 : ℚ) * 100 = 15000 := by norm_num
    rw [h2, round_eq]
    have h3 : ⌊(15000 : ℚ) + 1 / 2⌋ = 15000 := by norm_num [Int.floor_eq_iff]
    rw [h3]
    simp only [Rat.mkRat_eq_div]
    norm_num
  · rw [hr (by norm_num)]
    have h1 : (200 : ℚ) / 50 = 4 := by norm_num
    rw [h1, round2]
    have h2 : (4 : ℚ) * 100 = 400 := by norm_num
    rw [h2, round_eq]
    have h3 : ⌊(400 : ℚ) + 1 / 2⌋ = 400 := by norm_num [Int.floor_eq_iff]
    rw [h3]
    simp only [Rat.mkRat_eq_div]
    norm_num

/-- C6.  The multi-page merge resolves each field from the first page (lowest
index) that resolved it, discarding later pages' conflicting values, and a
page that resolved nothing never blocks later pages' contributions: field X
with value 10 on page 1 and 99 on page 2 merges to 10, and an empty first page
lets page 2 contribute. -/
theorem claim_C6 :
    (∀ (pages : List (CanonicalField → Option ℚ)) (f : CanonicalField),
      mergeFields pages f = (pages.map (fun p => p f)).findSome? id) ∧
    mergeFields [updMap (fun _ => none) .glucose 10,
      updMap (fun _ => none) .glucose 99] .glucose = some 10 ∧
    mergeFields [fun _ => none, updMap (fun _ => none) .hdl 7] .hdl = some 7 := by
  refine ⟨?_, by decide, by decide⟩
  intro pages f
  have h := foldl_pageStep_apply pages (fun _ => none) f
  simpa [mergeFields] using h

/-- C7.  The raw text returned by `process_pdf_bytes` never exceeds 5000
characters and is a prefix of the per-page texts joined with the visible page
separator. -/
theorem claim_C7 (texts : List (List Char)) (dpi : ℕ) :
    ((process_pdf_bytes texts dpi).raw_text).length ≤ 5000 ∧
    ∃ rest, List.intercalate PAGE_SEP texts = (process_pdf_bytes texts dpi).raw_text ++ rest := by
  constructor
  · show ((List.intercalate PAGE_SEP texts).take 5000).length ≤ 5000
    rw [List.length_take]
    exact min_le_left _ _
  · exact ⟨(List.intercalate PAGE_SEP texts).drop 5000, (List.take_append_drop _ _).symm⟩

/-- C8.  Every value in a `parse_labs` field map is non-negative: the numeric
token pattern carries no sign — the extractor reads the token inside `"-5.2"`
as 5.2 — and the derived non_hdl is clamped at 0. -/
theorem claim_C8 :
    (∀ (text : List Char) (f : CanonicalField) (v : ℚ),
      parse_labs text f = some v → 0 ≤ v) ∧
    _extract_value_unit_from_line "-5.2".data = some ((26 : ℚ) / 5, none) := by
  constructor
  · intro text f v hv
    rw [parse_labs] at hv
    have hnn : ∀ (g : CanonicalField) (w : ℚ),
        _normalize_units (_parse_lines text) g = some w → 0 ≤ w := normalize_nonneg text
    rcases htc : _normalize_units (_parse_lines text) .total_cholesterol with _ | tc <;>
      rcases hh : _normalize_units (_parse_lines text) .hdl with _ | hvv <;>
        rcases hnh : _normalize_units (_parse_lines text) .non_hdl with _ | nh <;>
          rw [deriveStep.eq_def, htc, hh, hnh] at hv <;> dsimp only at hv <;>
            first
              | exact hnn f v hv
              | skip
    have htc0 : 0 ≤ tc := hnn _ _ htc
    have hh0 : 0 ≤ hvv := hnn _ _ hh
    split_ifs at hv with hpos
    · by_cases hf1 : f = .chol_hdl_ratio
      · subst hf1
        simp only [updMap, if_pos rfl] at hv
        obtain rfl : round2 (tc / hvv) = v := by simpa using hv
        exact round2_nonneg _ (div_nonneg htc0 hh0)
      · by_cases hf2 : f = .non_hdl
        · subst hf2
          have : some (max 0 (round2 (tc - hvv))) = some v := by
            simpa [updMap, hf1] using hv
          obtain rfl : max 0 (round2 (tc - hvv)) = v := by simpa using this
          exact le_max_left 0 _
        · have : _normalize_units (_parse_lines text) f = some v := by
            simpa [updMap, hf1, hf2] using hv
          exact hnn f v this
    · by_cases hf2 : f = .non_hdl
      · subst hf2
        have : some (max 0 (round2 (tc - hvv))) = some v := by
          simpa [updMap] using hv
        obtain rfl : max 0 (round2 (tc - hvv)) = v := by simpa using this
        exact le_max_left 0 _
      · have : _normalize_units (_parse_lines text) f = some v := by
          simpa [updMap, hf2] using hv
        exact hnn f v this
  · have hq : (26 : ℚ) / 5 = mkRat 26 5 := by
      rw [Rat.mkRat_eq_div]
      norm_num
    rw [hq]
    decide

/-- C8, witness: `"HDL 45"` resolves hdl = 45 and the theorem certifies
0 ≤ 45. -/
theorem claim_C8_wit : parse_labs "HDL 45".data .hdl = some 45 ∧ (0 : ℚ) ≤ 45 :=
  ⟨by decide, claim_C8.1 "HDL 45".data .hdl 45 (by decide)⟩

/-- C9.  The numeric token pattern is not word-boundary anchored, so the
maximal digit run inside the alphanumeric token `B12` is a candidate value:
the only token of `"B12"` is its embedded `12`, the extractor returns 12, and
the line `"HGB B12"` resolves hgb = 12. -/
theorem claim_C9 :
    numberTokens "B12".data = [(1, 3)] ∧
    _extract_value_unit_from_line "B12".data = some (12, none) ∧
    parse_labs "HGB B12".data .hgb = some 12 :=
  ⟨by decide, by decide, by decide⟩

/-- C10.  With zero rasterized pages, `process_pdf_bytes` still returns a
normal result: empty fields, empty raw text, and meta recording pages = 0,
source pdf, and the requested dpi. -/
theorem claim_C10 (dpi : ℕ) :
    process_pdf_bytes [] dpi =
      { fields := fun _ => none, raw_text := [], pages := 0, source := Source.pdf,
        dpi := some dpi } := rfl

end OcrPipeline
